import Mathlib

/-
  Verification of the progression-and-scoring engine of the "Вредный Клиент"
  training bot.

  Shallow embedding notes:
  * Python numeric scores (floats / NUMERIC columns) are modelled as ℚ.
  * Python dicts (insertion-ordered, unique keys) are modelled as association
    lists `List (String × ℚ)`; `dictGet` finds the first binding, `dictSet`
    replaces the first binding in place or appends a new one at the end,
    mirroring CPython dict semantics.
  * Database rows are modelled by the `UserProgress` structure; a write is
    modelled by returning the new row.
  * Evaluation texts are modelled as `List Char`; the regular-expression
    searches of `calculate_score` are embedded as hand-rolled matchers whose
    determinisation is justified pattern by pattern in the comments.
-/

namespace BadClient

/-- Current roster, `ROLE_ORDER` in `db.py` / `main.py`. -/
def ROLE_ORDER : List String := ["dmitry", "irina", "max", "oleg", "victoria"]

/-- The `old_to_new` remapping dict of `migrate_user_data` (`db.py` 214-217). -/
def OLD_TO_NEW (k : String) : Option String :=
  if k = "svetlana" then some "dmitry"
  else if k = "marina" then some "irina"
  else none

/-- The `old_roles` list of `migrate_user_data` (`db.py` 219). -/
def OLD_ROLES : List String := ["svetlana", "marina", "irina", "oleg", "victoria"]

/-- One row of the `users` table, restricted to the fields the engine reads
and writes (`db.py` 58-66). -/
structure UserProgress where
  completed_roles : List String
  current_level_index : Int
  total_score : ℚ
  best_scores : List (String × ℚ)
deriving DecidableEq, Repr

/-- Lookup `d[k]` on a Python dict: the (unique) binding of `k`, if any. -/
def dictGet (d : List (String × ℚ)) (k : String) : Option ℚ :=
  match d with
  | [] => none
  | (k', v) :: rest => if k' = k then some v else dictGet rest k

/-- Assignment `d[k] = v` on a Python dict: replace the existing binding in place, else
append the new binding at the end (CPython insertion order). -/
def dictSet (d : List (String × ℚ)) (k : String) (v : ℚ) : List (String × ℚ) :=
  match d with
  | [] => [(k, v)]
  | (k', v') :: rest => if k' = k then (k', v) :: rest else (k', v') :: dictSet rest k v

/-- Keys of a dict, in order. -/
def dictKeys (d : List (String × ℚ)) : List String := d.map Prod.fst

/-- Python `sum(d.values())`. -/
def sumValues (d : List (String × ℚ)) : ℚ := (d.map Prod.snd).sum

/-- The idiom `if k not in d or score > d[k]: d[k] = score`, used both in
`update_user_progress` (`db.py` 144-145) and in the `best_scores` loop of
`migrate_user_data` (`db.py` 254-255, 258-259). -/
def bestUpdate (d : List (String × ℚ)) (k : String) (score : ℚ) : List (String × ℚ) :=
  match dictGet d k with
  | none => dictSet d k score
  | some old => if old < score then dictSet d k score else d

/-- The pure core of `update_user_progress` (`db.py` 131-148): the record it
writes back (and returns), as a function of the record read by
`get_user_progress`.  Both membership tests at lines 133 and 138 are against
the record as read, which the embedding reflects. -/
def update_user_progress (r : UserProgress) (role_key : String) (score : ℚ) :
    UserProgress :=
  let completed_roles :=
    if role_key ∈ r.completed_roles then r.completed_roles
    else r.completed_roles ++ [role_key]
  let current_level_index :=
    if role_key ∉ r.completed_roles ∧
        r.current_level_index < (ROLE_ORDER.length : Int) - 1
    then r.current_level_index + 1
    else r.current_level_index
  let best_scores := bestUpdate r.best_scores role_key score
  let total_score := sumValues best_scores
  ⟨completed_roles, current_level_index, total_score, best_scores⟩

/-- One iteration of the `for role_key in completed_roles` loop of
`migrate_user_data` (`db.py` 236-246), threading the accumulated
`new_completed` list and the `migrated` flag. -/
def migrateRolesStep (acc : List String × Bool) (role_key : String) :
    List String × Bool :=
  match OLD_TO_NEW role_key with
  | some new_key =>
    (if new_key ∈ acc.1 then acc.1 else acc.1 ++ [new_key], true)
  | none =>
    if role_key ∈ ROLE_ORDER then
      (if role_key ∈ acc.1 then acc.1 else acc.1 ++ [role_key], acc.2)
    else acc

/-- One iteration of the `for role_key, score in best_scores.items()` loop of
`migrate_user_data` (`db.py` 251-259). -/
def migrateBestStep (acc : List (String × ℚ) × Bool) (kv : String × ℚ) :
    List (String × ℚ) × Bool :=
  match OLD_TO_NEW kv.1 with
  | some new_key => (bestUpdate acc.1 new_key kv.2, true)
  | none =>
    if kv.1 ∈ ROLE_ORDER then (bestUpdate acc.1 kv.1 kv.2, acc.2) else acc

/-- The `completed_roles` section of `migrate_user_data` (`db.py` 226-246):
result list plus the `migrated` flag contributed by this section.  The empty
list is skipped by Python truthiness (`if completed_roles:`). -/
def migratedRoles (completed : List String) : List String × Bool :=
  if completed = [] then (completed, false)
  else if OLD_ROLES.all (fun role => decide (role ∈ completed)) then
    (ROLE_ORDER, true)
  else completed.foldl migrateRolesStep ([], false)

/-- The `best_scores` section of `migrate_user_data` (`db.py` 249-260). -/
def migratedBest (best : List (String × ℚ)) : List (String × ℚ) × Bool :=
  if best = [] then (best, false)
  else best.foldl migrateBestStep ([], false)

/-- Everything `migrate_user_data` computes before the conditional persist. -/
structure MigrateResult where
  migrated : Bool
  completed_roles : List String
  current_level_index : Int
  total_score : ℚ
  best_scores : List (String × ℚ)
deriving DecidableEq, Repr

/-- The pure computation of `migrate_user_data` (`db.py` 221-273): remapped
`completed_roles` and `best_scores`, recomputed `total_score` (`db.py`
262-266) and `current_level_index` (`db.py` 268-273), and whether anything
was flagged as migrated. -/
def migrate_compute (r : UserProgress) : MigrateResult :=
  let roles := migratedRoles r.completed_roles
  let best := migratedBest r.best_scores
  ⟨roles.2 || best.2,
   roles.1,
   (if roles.1.length ≥ ROLE_ORDER.length then (ROLE_ORDER.length : Int)
    else (roles.1.length : Int)),
   (if best.1 = [] then 0 else sumValues best.1),
   best.1⟩

/-- The database row after a `migrate_user_data` call (`db.py` 275-295): the
remapped row is persisted only when the `migrated` flag was set (the
`user_id` is always present on the read path, so the inner guard is
satisfied); otherwise the stored row is untouched. -/
def migrate_db (r : UserProgress) : UserProgress :=
  let m := migrate_compute r
  if m.migrated then
    ⟨m.completed_roles, m.current_level_index, m.total_score, m.best_scores⟩
  else r

/-- Function `get_user_progress` (`db.py` 86-121) for an existing stored row: it builds
the `result` dict from the row, calls `migrate_user_data(result)` — which
copies the collections out of the dict, persists the remapped copies, and
never writes them back into the dict — and then returns `result` unchanged.
First component: the returned record; second component: the stored row after
the migration check. -/
def get_user_progress (row : UserProgress) : UserProgress × UserProgress :=
  (row, migrate_db row)

/-! ## Scoring (`main.py`) -/

/-- The class `\s` of the Python `re` module, restricted to the ASCII whitespace
characters that can occur in the evaluation texts. -/
def isSpaceRe (c : Char) : Bool :=
  c = ' ' || c = '\t' || c = '\n' || c = '\r' || c = '\x0b' || c = '\x0c'

/-- Case folding used for `re.IGNORECASE` matching: Cyrillic А-Я and Ё fold
onto their lowercase forms, everything else falls back to ASCII `toLower`. -/
def lowerRu (c : Char) : Char :=
  if 0x410 ≤ c.toNat ∧ c.toNat ≤ 0x42F then Char.ofNat (c.toNat + 0x20)
  else if c = 'Ё' then 'ё'
  else c.toLower

/-- Case-insensitive character comparison (models `re.IGNORECASE`). -/
def ciEq (a b : Char) : Bool := lowerRu a == lowerRu b

/-- Match a literal case-insensitively at the head of the input; on success
return the remaining input. -/
def matchLit : List Char → List Char → Option (List Char)
  | [], s => some s
  | _ :: _, [] => none
  | l :: ls, c :: cs => if ciEq l c then matchLit ls cs else none

/-- Numeric value of a digit run (`int(match.group(1))` for a `\d+` group). -/
def natOfDigits (ds : List Char) : Nat :=
  ds.foldl (fun acc c => acc * 10 + (c.toNat - '0'.toNat)) 0

/-- Greedy `(\d+)` at the head of the input: the maximal digit run (there is
at least one digit), its value, and the remaining input.  Greediness loses no
matches for the patterns below: a digit given back by backtracking would then
have to match `\s`, `/`, `и` or `б`, which is impossible. -/
def takeDigits (s : List Char) : Option (Nat × List Char) :=
  match s.takeWhile Char.isDigit with
  | [] => none
  | ds => some (natOfDigits ds, s.dropWhile Char.isDigit)

/-- The character class `[аиуе]` under `re.IGNORECASE`. -/
def ruRatingVowel (c : Char) : Bool :=
  ciEq c 'а' || ciEq c 'и' || ciEq c 'у' || ciEq c 'е'

/-- The regex `(\d+)\s*балл` (first entry of `score_patterns`, `main.py` 242)
anchored at the current position. -/
def matchBallAt (s : List Char) : Option Nat := do
  let (n, r1) ← takeDigits s
  let r2 := r1.dropWhile isSpaceRe
  let _ ← matchLit "балл".toList r2
  pure n

/-- The regex `оценк[аиуе]\s*[:\-]?\s*(\d+)` (`main.py` 243) anchored at the
current position.  The greedy `\s*` runs and the optional `[:\-]` are
committed without backtracking: a whitespace character handed back could only
be re-consumed by `[:\-]` or `\d`, which both reject whitespace, and an
unconsumed `:` or `-` can never match `\s` or `\d`. -/
def matchOcenkaColonAt (s : List Char) : Option Nat := do
  let r1 ← matchLit "оценк".toList s
  match r1 with
  | [] => none
  | c :: r2 =>
    if ruRatingVowel c then do
      let r3 := r2.dropWhile isSpaceRe
      let r4 := match r3 with
        | c2 :: rest => if c2 = ':' || c2 = '-' then rest else r3
        | [] => r3
      let r5 := r4.dropWhile isSpaceRe
      let (n, _) ← takeDigits r5
      pure n
    else none

/-- The regex `(\d+)\s*из\s*20` (`main.py` 244) anchored at the current
position. -/
def matchIz20At (s : List Char) : Option Nat := do
  let (n, r1) ← takeDigits s
  let r2 := r1.dropWhile isSpaceRe
  let r3 ← matchLit "из".toList r2
  let r4 := r3.dropWhile isSpaceRe
  let _ ← matchLit "20".toList r4
  pure n

/-- The regex `(\d+)/20` (`main.py` 245) anchored at the current position. -/
def matchSlash20At (s : List Char) : Option Nat := do
  let (n, r1) ← takeDigits s
  let r2 ← matchLit "/".toList r1
  let _ ← matchLit "20".toList r2
  pure n

/-- The regex `оцен[аиуе]\s*(\d+)` (`main.py` 246) anchored at the current
position. -/
def matchOcenAt (s : List Char) : Option Nat := do
  let r1 ← matchLit "оцен".toList s
  match r1 with
  | [] => none
  | c :: r2 =>
    if ruRatingVowel c then do
      let r3 := r2.dropWhile isSpaceRe
      let (n, _) ← takeDigits r3
      pure n
    else none

/-- Search like `re.search`: try the anchored matcher at every position left to right and
return the captured group of the leftmost match. -/
def reSearch (m : List Char → Option Nat) : List Char → Option Nat
  | [] => m []
  | c :: rest =>
    match m (c :: rest) with
    | some n => some n
    | none => reSearch m rest

/-- The `score_patterns` list of `calculate_score` (`main.py` 241-247), each
pattern compiled to its search function, in source order. -/
def score_patterns : List (List Char → Option Nat) :=
  [reSearch matchBallAt, reSearch matchOcenkaColonAt, reSearch matchIz20At,
   reSearch matchSlash20At, reSearch matchOcenAt]

/-- The `for pattern in score_patterns` loop of `calculate_score` (`main.py`
249-258): the first pattern whose (first) match parses to a value in
`[0, 20]` wins and breaks the loop; an out-of-range match falls through to
the next pattern; if no pattern yields an in-range value the default of 10
survives.  (`int` of a `\d+` group never raises, so the `except ValueError`
arm is dead.) -/
def base_score_scan : List (List Char → Option Nat) → List Char → Nat
  | [], _ => 10
  | p :: ps, s =>
    match p s with
    | some n => if 0 ≤ n ∧ n ≤ 20 then n else base_score_scan ps s
    | none => base_score_scan ps s

/-- Base-score extraction of `calculate_score` (`main.py` 238-258). -/
def base_score (s : List Char) : Nat := base_score_scan score_patterns s

/-- Rounding `round(x, 2)` of `calculate_score` (`main.py` 279), modelled over ℚ.
(Python rounds binary doubles half-to-even; over ℚ this coincides with
`round` except at exact two-decimal ties, which no claim exercises.) -/
def round2 (q : ℚ) : ℚ := (round (q * 100) : ℤ) / 100

/-- Achievement tiers (`main.py` 267-275 and the duplicated block at
`main.py` 517-525). -/
def achievement_for (base : Int) : Option String :=
  if base ≥ 18 then some "🌟 Мастер переговоров"
  else if base ≥ 15 then some "💎 Профессионал"
  else if base ≥ 12 then some "⭐ Хорошая работа"
  else if base ≥ 8 then some "👍 Неплохо"
  else none

/-- The dict returned by `calculate_score` (`main.py` 277-281). -/
structure ScoreResult where
  base_score : Int
  final_score : ℚ
  achievement : Option String
deriving DecidableEq, Repr

/-- Function `calculate_score` (`main.py` 221-281).  The multiplier is the looked-up
`ROLES[role_key]['multiplier']` (the catalog itself lives in the external
`roles_data` module), passed here directly. -/
def calculate_score (multiplier : ℚ) (message_count : Nat) (llm_response : List Char) :
    ScoreResult :=
  let base := base_score llm_response
  let mc := if message_count = 0 then 1 else message_count
  ⟨(base : Int),
   round2 (multiplier * ((base : ℚ) / (mc : ℚ))),
   achievement_for (base : Int)⟩

/-- Strip leading and trailing whitespace (`str.strip()`). -/
def stripChars (s : List Char) : List Char :=
  ((s.dropWhile isSpaceRe).reverse.dropWhile isSpaceRe).reverse

/-- Python `int(s)` on an already-stripped string: optional sign followed by at
least one digit; anything else raises `ValueError`, modelled as `none`. -/
def parseIntPy (s : List Char) : Option Int :=
  match s with
  | '-' :: ds =>
    if ds.all Char.isDigit && !ds.isEmpty then some (-(natOfDigits ds : Int)) else none
  | '+' :: ds =>
    if ds.all Char.isDigit && !ds.isEmpty then some ((natOfDigits ds : Int)) else none
  | ds =>
    if ds.all Char.isDigit && !ds.isEmpty then some ((natOfDigits ds : Int)) else none

/-- The Python `needle in haystack` substring test, case-sensitive. -/
def containsSubstring (needle hay : List Char) : Bool :=
  decide (needle <:+: hay)

/-- The literal `'Базовая оценка:'` searched for in `handle_message`
(`main.py` 503). -/
def BASE_SCORE_MARKER : List Char := "Базовая оценка:".toList

/-- The ad-hoc base-score parse of the live victory path (`main.py`
500-507): take the first line of the analysis containing `'Базовая оценка:'`,
split it on `':'` and keep the last piece, split that on `'/'` and keep the
first piece, strip it and parse it as an `int`; on `StopIteration` (no such
line) or `ValueError` (no parse) keep the default 10.  No range check is
applied to the parsed value. -/
def parse_base_score_live (analysis_text : List Char) : Int :=
  match (analysis_text.splitOn '\n').find?
      (fun line => containsSubstring BASE_SCORE_MARKER line) with
  | none => 10
  | some line =>
    let lastPart := (line.splitOn ':').getLastD line
    let beforeSlash := (lastPart.splitOn '/').headD lastPart
    match parseIntPy (stripChars beforeSlash) with
    | some n => n
    | none => 10

/-- The score computation of the live victory path (`main.py` 499-531):
base score from `parse_base_score_live`, the same final-score formula and
achievement tiers as `calculate_score`, duplicated inline in
`handle_message`. -/
def handle_message_victory_score (multiplier : ℚ) (message_count : Nat)
    (analysis_text : List Char) : ScoreResult :=
  let base := parse_base_score_live analysis_text
  let mc := if message_count = 0 then 1 else message_count
  ⟨base,
   round2 (multiplier * ((base : ℚ) / (mc : ℚ))),
   achievement_for base⟩

/-- The `victory_phrases` list of `handle_message` (`main.py` 476-487). -/
def victory_phrases : List String :=
  ["Окей, договорились", "окей, договорились",
   "Хорошо, договорились", "хорошо, договорились",
   "Договорились", "договорились",
   "Согласен", "согласен",
   "Согласна", "согласна"]

/-- Victory check of `handle_message` (`main.py` 489):
`any(phrase in llm_response for phrase in victory_phrases)`,: case-sensitive substring containment against the fixed
phrase list. -/
def is_victory (text : List Char) : Bool :=
  victory_phrases.any (fun phrase => containsSubstring phrase.toList text)

/-! ## Dictionary lemmas -/

@[simp]
theorem dictKeys_nil : dictKeys [] = [] := rfl

@[simp]
theorem dictKeys_cons (kv : String × ℚ) (d : List (String × ℚ)) :
    dictKeys (kv :: d) = kv.1 :: dictKeys d := rfl

@[simp]
theorem dictKeys_append (d1 d2 : List (String × ℚ)) :
    dictKeys (d1 ++ d2) = dictKeys d1 ++ dictKeys d2 := by
  simp [dictKeys]

@[simp]
theorem sumValues_nil : sumValues [] = 0 := rfl

@[simp]
theorem sumValues_cons (kv : String × ℚ) (d : List (String × ℚ)) :
    sumValues (kv :: d) = kv.2 + sumValues d := by
  simp [sumValues]

@[simp]
theorem sumValues_append (d1 d2 : List (String × ℚ)) :
    sumValues (d1 ++ d2) = sumValues d1 + sumValues d2 := by
  simp [sumValues]

theorem dictGet_dictSet_self (d : List (String × ℚ)) (k : String) (v : ℚ) :
    dictGet (dictSet d k v) k = some v := by
  induction d with
  | nil => simp [dictSet, dictGet]
  | cons kv rest ih =>
    obtain ⟨k', v'⟩ := kv
    by_cases h : k' = k
    · simp [dictSet, dictGet, h]
    · simp [dictSet, dictGet, h, ih]

theorem dictSet_of_get_none (d : List (String × ℚ)) (k : String) (v : ℚ)
    (h : dictGet d k = none) : dictSet d k v = d ++ [(k, v)] := by
  induction d with
  | nil => simp [dictSet]
  | cons kv rest ih =>
    obtain ⟨k', v'⟩ := kv
    by_cases hk : k' = k
    · simp [dictGet, hk] at h
    · simp only [dictGet, if_neg hk] at h
      simp [dictSet, hk, ih h]

theorem sumValues_dictSet_some (d : List (String × ℚ)) (k : String) (v old : ℚ)
    (h : dictGet d k = some old) :
    sumValues (dictSet d k v) = sumValues d - old + v := by
  induction d with
  | nil => simp [dictGet] at h
  | cons kv rest ih =>
    obtain ⟨k', v'⟩ := kv
    by_cases hk : k' = k
    · simp only [dictGet, if_pos hk, Option.some.injEq] at h
      subst h
      simp [dictSet, hk]
      ring
    · simp only [dictGet, if_neg hk] at h
      simp [dictSet, hk, ih h]
      ring

theorem dictGet_eq_none_iff (d : List (String × ℚ)) (k : String) :
    dictGet d k = none ↔ k ∉ dictKeys d := by
  induction d with
  | nil => simp [dictGet]
  | cons kv rest ih =>
    obtain ⟨k', v'⟩ := kv
    by_cases hk : k' = k
    · subst hk
      simp [dictGet]
    · simp [dictGet, hk, ih, Ne.symm hk]

theorem bestUpdate_of_get_none (d : List (String × ℚ)) (k : String) (s : ℚ)
    (h : dictGet d k = none) : bestUpdate d k s = dictSet d k s := by
  unfold bestUpdate
  rw [h]

theorem bestUpdate_of_get_some (d : List (String × ℚ)) (k : String) (s old : ℚ)
    (h : dictGet d k = some old) :
    bestUpdate d k s = if old < s then dictSet d k s else d := by
  unfold bestUpdate
  rw [h]

theorem mem_dictKeys_dictSet (d : List (String × ℚ)) (k : String) (v : ℚ)
    (x : String) (h : x ∈ dictKeys (dictSet d k v)) : x ∈ dictKeys d ∨ x = k := by
  induction d with
  | nil =>
    simp [dictSet] at h
    exact Or.inr h
  | cons kv rest ih =>
    obtain ⟨k', v'⟩ := kv
    by_cases hk : k' = k
    · simp only [dictSet, if_pos hk, dictKeys_cons, List.mem_cons] at h
      rcases h with h | h
      · exact Or.inl (by simp [h])
      · exact Or.inl (by simp [h])
    · simp only [dictSet, if_neg hk, dictKeys_cons, List.mem_cons] at h
      rcases h with h | h
      · exact Or.inl (by simp [h])
      · rcases ih h with h' | h'
        · exact Or.inl (by simp [h'])
        · exact Or.inr h'

theorem nodup_dictKeys_dictSet (d : List (String × ℚ)) (k : String) (v : ℚ)
    (h : (dictKeys d).Nodup) : (dictKeys (dictSet d k v)).Nodup := by
  induction d with
  | nil => simp [dictSet]
  | cons kv rest ih =>
    obtain ⟨k', v'⟩ := kv
    simp only [dictKeys_cons, List.nodup_cons] at h
    by_cases hk : k' = k
    · simp only [dictSet, if_pos hk, dictKeys_cons]
      exact List.nodup_cons.mpr ⟨h.1, h.2⟩
    · simp only [dictSet, if_neg hk, dictKeys_cons]
      refine List.nodup_cons.mpr ⟨?_, ih h.2⟩
      intro hmem
      rcases mem_dictKeys_dictSet rest k v k' hmem with h' | h'
      · exact h.1 h'
      · exact hk h'

theorem mem_dictKeys_bestUpdate (d : List (String × ℚ)) (k : String) (s : ℚ)
    (x : String) (h : x ∈ dictKeys (bestUpdate d k s)) : x ∈ dictKeys d ∨ x = k := by
  cases hg : dictGet d k with
  | none =>
    rw [bestUpdate_of_get_none d k s hg] at h
    exact mem_dictKeys_dictSet d k s x h
  | some old =>
    rw [bestUpdate_of_get_some d k s old hg] at h
    by_cases ho : old < s
    · rw [if_pos ho] at h
      exact mem_dictKeys_dictSet d k s x h
    · rw [if_neg ho] at h
      exact Or.inl h

theorem nodup_dictKeys_bestUpdate (d : List (String × ℚ)) (k : String) (s : ℚ)
    (h : (dictKeys d).Nodup) : (dictKeys (bestUpdate d k s)).Nodup := by
  cases hg : dictGet d k with
  | none =>
    rw [bestUpdate_of_get_none d k s hg]
    exact nodup_dictKeys_dictSet d k s h
  | some old =>
    rw [bestUpdate_of_get_some d k s old hg]
    by_cases ho : old < s
    · rw [if_pos ho]
      exact nodup_dictKeys_dictSet d k s h
    · rw [if_neg ho]
      exact h

theorem dictGet_bestUpdate_self (d : List (String × ℚ)) (k : String) (s : ℚ) :
    dictGet (bestUpdate d k s) k = some (max ((dictGet d k).getD s) s) := by
  cases hg : dictGet d k with
  | none =>
    rw [bestUpdate_of_get_none d k s hg]
    simp [dictGet_dictSet_self]
  | some old =>
    rw [bestUpdate_of_get_some d k s old hg]
    by_cases ho : old < s
    · simp [if_pos ho, dictGet_dictSet_self, max_eq_right (le_of_lt ho)]
    · simp [if_neg ho, hg, max_eq_left (not_lt.mp ho)]

theorem sumValues_bestUpdate_ge (d : List (String × ℚ)) (k : String) (s : ℚ)
    (hs : 0 ≤ s) : sumValues d ≤ sumValues (bestUpdate d k s) := by
  cases hg : dictGet d k with
  | none =>
    rw [bestUpdate_of_get_none d k s hg, dictSet_of_get_none d k s hg,
      sumValues_append]
    simp
    linarith
  | some old =>
    rw [bestUpdate_of_get_some d k s old hg]
    by_cases ho : old < s
    · rw [if_pos ho, sumValues_dictSet_some d k s old hg]
      linarith
    · rw [if_neg ho]

theorem dictGet_append_of_ne (d : List (String × ℚ)) (k : String) (v : ℚ)
    (x : String) (hx : dictGet d x = none) (hne : x ≠ k) :
    dictGet (d ++ [(k, v)]) x = none := by
  induction d with
  | nil => simp [dictGet, Ne.symm hne]
  | cons kv rest ih =>
    obtain ⟨k', v'⟩ := kv
    by_cases hk : k' = x
    · simp [dictGet, hk] at hx
    · simp only [dictGet, if_neg hk] at hx
      simp only [List.cons_append, dictGet, if_neg hk]
      exact ih hx

/-! ## Concrete records used as witnesses -/

/-- A stored row of the legacy era: one legacy persona completed. -/
def legacyRow : UserProgress := ⟨["svetlana"], 1, 5, [("svetlana", 5)]⟩

/-- A current-era record with the first persona completed. -/
def demoRecord : UserProgress := ⟨["dmitry"], 1, 5, [("dmitry", 5)]⟩

/-- A freshly created record (`get_user_progress` insert defaults,
`db.py` 96-106). -/
def emptyRecord : UserProgress := ⟨[], 0, 0, []⟩

/-! ## Claims -/

/-- C1: the claim says the record returned by `get_user_progress` contains
only current-roster keys after the unconditional migration check.  The code
violates this: `migrate_user_data` copies the collections out of the passed
dict, persists the remapped copies, and never mutates the dict, so the
returned record still carries the legacy key `"svetlana"` even though the
stored row was rewritten to `"dmitry"`.  Stale legacy keys surviving a read
path whose stated purpose is to run the migration check contradicts the
documented intent of the migration, so this is recorded as a code bug,
evaluated here at the failing input `legacyRow`. -/
theorem c1_stale_read :
    "svetlana" ∈ (get_user_progress legacyRow).1.completed_roles ∧
    "svetlana" ∉ ROLE_ORDER ∧
    (get_user_progress legacyRow).2.completed_roles = ["dmitry"] ∧
    (get_user_progress legacyRow).2.best_scores = [("dmitry", 5)] := by
  decide

/-- C2: after every mutation — the record written by `update_user_progress`
and the row persisted by a migrating run of `migrate_user_data` — the stored
`total_score` equals the sum of the values of the stored `best_scores`. -/
theorem c2_total_score_invariant : ∀ (r : UserProgress) (k : String) (s : ℚ),
    (update_user_progress r k s).total_score =
      sumValues (update_user_progress r k s).best_scores ∧
    ((migrate_compute r).migrated = true →
      (migrate_db r).total_score = sumValues (migrate_db r).best_scores) := by
  intro r k s
  constructor
  · rfl
  · intro h
    simp only [migrate_db, h, if_true]
    show (migrate_compute r).total_score = sumValues (migrate_compute r).best_scores
    simp only [migrate_compute]
    by_cases hb : (migratedBest r.best_scores).1 = []
    · simp [hb]
    · simp [hb]

/-- C2 witness: both mutations evaluated at concrete records. -/
theorem c2_total_score_invariant_witness :
    ((update_user_progress demoRecord "max" 3).total_score =
      sumValues (update_user_progress demoRecord "max" 3).best_scores) ∧
    ((migrate_compute legacyRow).migrated = true ∧
      (migrate_db legacyRow).total_score = sumValues (migrate_db legacyRow).best_scores) :=
  ⟨(c2_total_score_invariant demoRecord "max" 3).1,
   ⟨by decide, (c2_total_score_invariant legacyRow "max" 3).2 (by decide)⟩⟩

/-- C3: `update_user_progress` appends a new persona to `completed_roles`
and increments `current_level_index` by one exactly when the index is below
`len(ROLE_ORDER) - 1`; replaying a completed persona changes neither; the
persona's best score becomes the maximum of the existing entry (if any) and
the new score. -/
theorem c3_update_semantics : ∀ (r : UserProgress) (k : String) (s : ℚ),
    (k ∉ r.completed_roles →
      (update_user_progress r k s).completed_roles = r.completed_roles ++ [k] ∧
      ((update_user_progress r k s).current_level_index = r.current_level_index + 1 ↔
        r.current_level_index < (ROLE_ORDER.length : Int) - 1)) ∧
    (k ∈ r.completed_roles →
      (update_user_progress r k s).completed_roles = r.completed_roles ∧
      (update_user_progress r k s).current_level_index = r.current_level_index) ∧
    dictGet (update_user_progress r k s).best_scores k =
      some (max ((dictGet r.best_scores k).getD s) s) := by
  intro r k s
  refine ⟨?_, ?_, ?_⟩
  · intro hk
    constructor
    · simp [update_user_progress, hk]
    · by_cases hi : r.current_level_index < (ROLE_ORDER.length : Int) - 1
      · simp only [update_user_progress]
        rw [if_pos ⟨hk, hi⟩]
        simp [hi]
      · simp only [update_user_progress]
        rw [if_neg (fun hc => hi hc.2)]
        constructor
        · intro habs
          omega
        · intro habs
          exact absurd habs hi
  · intro hk
    constructor
    · simp [update_user_progress, hk]
    · simp only [update_user_progress]
      rw [if_neg (fun hc => hc.1 hk)]
  · exact dictGet_bestUpdate_self r.best_scores k s

/-- C3 witness: both hypotheses discharged at concrete inputs. -/
theorem c3_update_semantics_witness :
    ("max" ∉ demoRecord.completed_roles ∧
      (update_user_progress demoRecord "max" 3).completed_roles =
        demoRecord.completed_roles ++ ["max"] ∧
      ((update_user_progress demoRecord "max" 3).current_level_index =
          demoRecord.current_level_index + 1 ↔
        demoRecord.current_level_index < (ROLE_ORDER.length : Int) - 1)) ∧
    ("dmitry" ∈ demoRecord.completed_roles ∧
      (update_user_progress demoRecord "dmitry" 2).completed_roles =
        demoRecord.completed_roles ∧
      (update_user_progress demoRecord "dmitry" 2).current_level_index =
        demoRecord.current_level_index) :=
  ⟨⟨by decide, (c3_update_semantics demoRecord "max" 3).1 (by decide)⟩,
   ⟨by decide, (c3_update_semantics demoRecord "dmitry" 2).2.1 (by decide)⟩⟩

/-- C9: a live update never pushes `current_level_index` to
`len(ROLE_ORDER)`: starting from any index at most `len(ROLE_ORDER) - 1`,
`update_user_progress` leaves it at most `len(ROLE_ORDER) - 1`, and never
decreases it. -/
theorem c9_index_bound : ∀ (r : UserProgress) (k : String) (s : ℚ),
    r.current_level_index ≤ (ROLE_ORDER.length : Int) - 1 →
    (update_user_progress r k s).current_level_index ≤ (ROLE_ORDER.length : Int) - 1 ∧
    r.current_level_index ≤ (update_user_progress r k s).current_level_index := by
  intro r k s h
  simp only [update_user_progress]
  by_cases hc : k ∉ r.completed_roles ∧
      r.current_level_index < (ROLE_ORDER.length : Int) - 1
  · rw [if_pos hc]
    obtain ⟨-, h2⟩ := hc
    constructor
    · omega
    · omega
  · rw [if_neg hc]
    exact ⟨h, le_refl _⟩

/-- C9 witness: applied at the last live index `len(ROLE_ORDER) - 1 = 4`. -/
theorem c9_index_bound_witness :
    (⟨["dmitry", "irina", "max", "oleg"], 4, 0, []⟩ :
        UserProgress).current_level_index ≤ (ROLE_ORDER.length : Int) - 1 ∧
    (update_user_progress ⟨["dmitry", "irina", "max", "oleg"], 4, 0, []⟩
        "victoria" 3).current_level_index ≤ (ROLE_ORDER.length : Int) - 1 ∧
    (⟨["dmitry", "irina", "max", "oleg"], 4, 0, []⟩ :
        UserProgress).current_level_index ≤
      (update_user_progress ⟨["dmitry", "irina", "max", "oleg"], 4, 0, []⟩
        "victoria" 3).current_level_index :=
  ⟨by decide,
   c9_index_bound ⟨["dmitry", "irina", "max", "oleg"], 4, 0, []⟩ "victoria" 3 (by decide)⟩

/-- C10 counterexample: the claim quantifies over every score, but
`update_user_progress` applied to a fresh record and a negative score
strictly lowers `total_score` (negative final scores are reachable: the live
victory path parses the analysis integer without any range check, and the
multiplier is positive). -/
theorem c10_counterexample :
    (update_user_progress emptyRecord "dmitry" (-1)).total_score <
      emptyRecord.total_score := by
  norm_num [update_user_progress, emptyRecord, bestUpdate, dictGet, dictSet, sumValues]

/-- C10 amended: for every record satisfying the documented derivation
`total_score = sum(best_scores.values())` and every nonnegative score, the
`total_score` written by `update_user_progress` is at least the record's
previous `total_score`, because best-score entries are only added or raised
via max and never removed or lowered. -/
theorem c10_total_monotone : ∀ (r : UserProgress) (k : String) (s : ℚ),
    r.total_score = sumValues r.best_scores → 0 ≤ s →
    r.total_score ≤ (update_user_progress r k s).total_score := by
  intro r k s hinv hs
  have hts : (update_user_progress r k s).total_score =
      sumValues (bestUpdate r.best_scores k s) := rfl
  rw [hts, hinv]
  exact sumValues_bestUpdate_ge r.best_scores k s hs

/-- C10 witness: the amended monotonicity applied at a concrete record. -/
theorem c10_total_monotone_witness :
    emptyRecord.total_score = sumValues emptyRecord.best_scores ∧
    (0 : ℚ) ≤ 2 ∧
    emptyRecord.total_score ≤ (update_user_progress emptyRecord "dmitry" 2).total_score :=
  ⟨by decide, by decide, c10_total_monotone emptyRecord "dmitry" 2 (by decide) (by decide)⟩

/-- The pattern loop of `calculate_score` returns the value of the first
pattern whose (first) match is in range, and 10 if there is none: the loop
with break is equivalent to taking the head of the in-range match results in
pattern priority order. -/
theorem base_score_scan_characterization :
    ∀ (ps : List (List Char → Option Nat)) (s : List Char),
    base_score_scan ps s =
      ((ps.map (fun p => p s)).filterMap
        (fun o => match o with
          | some n => if 0 ≤ n ∧ n ≤ 20 then some n else none
          | none => none)).headD 10 := by
  intro ps
  induction ps with
  | nil => intro s; rfl
  | cons p ps ih =>
    intro s
    simp only [List.map_cons, List.filterMap_cons]
    cases hp : p s with
    | none => simpa [base_score_scan, hp] using ih s
    | some n =>
      by_cases hn : n ≤ 20
      · have hn2 : 0 ≤ n ∧ n ≤ 20 := ⟨Nat.zero_le n, hn⟩
        simp [base_score_scan, hp, hn, hn2]
      · have hn2 : ¬(0 ≤ n ∧ n ≤ 20) := fun hc => hn hc.2
        simp [base_score_scan, hp, hn, hn2, ih s]

/-- C4 counterexample: the claim extends the in-range filter to every
scoring path, but the live victory path of `handle_message` parses the
rating from the `'Базовая оценка:'` line with no range check at all: on the
analysis text `"Базовая оценка: 25/20"` it adopts 25 — outside `[0, 20]` —
as the base score, while `calculate_score` on the very same text rejects
both out-of-range matches and falls back to 10. -/
theorem c4_counterexample :
    (handle_message_victory_score 1 1 "Базовая оценка: 25/20".toList).base_score = 25 ∧
    ¬((0 : Int) ≤ 25 ∧ (25 : Int) ≤ 20) ∧
    (calculate_score 1 1 "Базовая оценка: 25/20".toList).base_score = 10 := by
  refine ⟨by decide, by decide, by decide⟩

/-- C4 amended: in `calculate_score`, the ordered pattern rules are tried in
priority order and the first rule whose matched numeric value lies in
`[0, 20]` wins; an out-of-range match is rejected and scanning continues
with the next rule; if no rule yields an in-range value the base score is
the fixed default 10.  The live victory path does not share this logic: it
parses the `'Базовая оценка:'` line directly, without a range check,
defaulting to 10 only when no such line parses as an integer. -/
theorem c4_first_match_wins : ∀ s : List Char,
    base_score s =
      ((score_patterns.map (fun p => p s)).filterMap
        (fun o => match o with
          | some n => if 0 ≤ n ∧ n ≤ 20 then some n else none
          | none => none)).headD 10 :=
  fun s => base_score_scan_characterization score_patterns s

/-- The evaluation text of the worked scoring example. -/
def exampleText : List Char := "Базовая оценка: 15/20".toList

/-- C7: the final score is the multiplier times the base score divided by
`max(message_count, 1)`, rounded to two decimals — the divisor is always
positive, so no division error is possible even at `message_count = 0`; and
on the example text `"Базовая оценка: 15/20"` with `message_count = 3` and
multiplier 1 both `calculate_score` and the live victory path produce base
score 15, final score 5.0, and the professional-tier achievement (tiers are
evaluated on the base score, not the final score). -/
theorem c7_final_score_formula :
    ∀ (multiplier : ℚ) (message_count : Nat) (text : List Char),
    ((calculate_score multiplier message_count text).final_score =
        round2 (multiplier * ((base_score text : ℚ) / max (message_count : ℚ) 1)) ∧
      (0 : ℚ) < max (message_count : ℚ) 1) ∧
    ((calculate_score 1 3 exampleText).base_score = 15 ∧
      (calculate_score 1 3 exampleText).final_score = 5 ∧
      (calculate_score 1 3 exampleText).achievement = some "💎 Профессионал" ∧
      (handle_message_victory_score 1 3 exampleText).base_score = 15 ∧
      (handle_message_victory_score 1 3 exampleText).final_score = 5 ∧
      (handle_message_victory_score 1 3 exampleText).achievement =
        some "💎 Профессионал") := by
  intro multiplier message_count text
  have hmax : ((if message_count = 0 then 1 else message_count : Nat) : ℚ) =
      max (message_count : ℚ) 1 := by
    rcases Nat.eq_zero_or_pos message_count with h | h
    · subst h
      simp
    · rw [if_neg (Nat.pos_iff_ne_zero.mp h)]
      rw [max_eq_left (by exact_mod_cast h)]
  refine ⟨⟨?_, lt_max_of_lt_right one_pos⟩, ?_, ?_, ?_, ?_, ?_, ?_⟩
  · simp only [calculate_score, hmax]
  · decide
  · show round2 (1 * ((base_score exampleText : ℚ) / ((3 : Nat) : ℚ))) = 5
    have hb : base_score exampleText = 15 := by decide
    rw [hb]
    norm_num [round2]
  · decide
  · decide
  · show round2 (1 * ((parse_base_score_live exampleText : ℚ) / ((3 : Nat) : ℚ))) = 5
    have hb : parse_base_score_live exampleText = 15 := by decide
    rw [hb]
    norm_num [round2]
  · decide

/-- C8: a generated reply is classified as a victory exactly when one of the
fixed literal phrases occurs in it as a case-sensitive substring; in
particular any reply containing `"договорились"` is a victory. -/
theorem c8_victory_detection : ∀ text : List Char,
    (is_victory text = true ↔ ∃ p ∈ victory_phrases, p.toList <:+: text) ∧
    ("договорились".toList <:+: text → is_victory text = true) := by
  intro text
  have hiff : is_victory text = true ↔ ∃ p ∈ victory_phrases, p.toList <:+: text := by
    simp [is_victory, containsSubstring, List.any_eq_true]
  refine ⟨hiff, ?_⟩
  intro h
  exact hiff.mpr ⟨"договорились", by decide, h⟩

/-- C8 witness: the substring implication applied at a concrete reply. -/
theorem c8_victory_detection_witness :
    ("договорились".toList <:+: "Ну хорошо, договорились!".toList) ∧
    is_victory "Ну хорошо, договорились!".toList = true :=
  ⟨by decide, (c8_victory_detection "Ну хорошо, договорились!".toList).2 (by decide)⟩

/-! ## Migration lemmas -/

theorem old_to_new_none_of_mem_role_order :
    ∀ x ∈ ROLE_ORDER, OLD_TO_NEW x = none := by
  decide

theorem old_to_new_mem (k nk : String) (h : OLD_TO_NEW k = some nk) :
    nk ∈ ROLE_ORDER := by
  unfold OLD_TO_NEW at h
  by_cases h1 : k = "svetlana"
  · rw [if_pos h1] at h
    have h2 := Option.some.inj h
    subst h2
    decide
  · by_cases h2 : k = "marina"
    · rw [if_neg h1, if_pos h2] at h
      have h3 := Option.some.inj h
      subst h3
      decide
    · rw [if_neg h1, if_neg h2] at h
      exact absurd h (by simp)

theorem old_to_new_isSome_cases (k : String)
    (h : (OLD_TO_NEW k).isSome = true) : k = "svetlana" ∨ k = "marina" := by
  unfold OLD_TO_NEW at h
  by_cases h1 : k = "svetlana"
  · exact Or.inl h1
  · by_cases h2 : k = "marina"
    · exact Or.inr h2
    · rw [if_neg h1, if_neg h2] at h
      exact absurd h (by simp)

theorem nodup_append_singleton {l : List String} {a : String}
    (h : l.Nodup) (ha : a ∉ l) : (l ++ [a]).Nodup := by
  rw [List.nodup_append]
  refine ⟨h, List.nodup_singleton a, ?_⟩
  intro x hx hx'
  simp only [List.mem_singleton] at hx'
  subst hx'
  exact ha hx

theorem migrateRolesStep_some (acc : List String × Bool) (k nk : String)
    (h : OLD_TO_NEW k = some nk) :
    migrateRolesStep acc k =
      (if nk ∈ acc.1 then acc.1 else acc.1 ++ [nk], true) := by
  unfold migrateRolesStep
  rw [h]

theorem migrateRolesStep_none (acc : List String × Bool) (k : String)
    (h : OLD_TO_NEW k = none) :
    migrateRolesStep acc k =
      if k ∈ ROLE_ORDER then
        (if k ∈ acc.1 then acc.1 else acc.1 ++ [k], acc.2)
      else acc := by
  unfold migrateRolesStep
  rw [h]

theorem migrateRolesStep_mem (acc : List String × Bool) (k : String)
    (x : String) (hx : x ∈ (migrateRolesStep acc k).1) :
    x ∈ acc.1 ∨ x ∈ ROLE_ORDER := by
  cases ho : OLD_TO_NEW k with
  | some nk =>
    rw [migrateRolesStep_some acc k nk ho] at hx
    by_cases hm : nk ∈ acc.1
    · rw [if_pos hm] at hx
      exact Or.inl hx
    · rw [if_neg hm] at hx
      rcases List.mem_append.mp hx with h | h
      · exact Or.inl h
      · simp only [List.mem_singleton] at h
        subst h
        exact Or.inr (old_to_new_mem k x ho)
  | none =>
    rw [migrateRolesStep_none acc k ho] at hx
    by_cases hr : k ∈ ROLE_ORDER
    · rw [if_pos hr] at hx
      by_cases hm : k ∈ acc.1
      · rw [if_pos hm] at hx
        exact Or.inl hx
      · rw [if_neg hm] at hx
        rcases List.mem_append.mp hx with h | h
        · exact Or.inl h
        · simp only [List.mem_singleton] at h
          subst h
          exact Or.inr hr
    · rw [if_neg hr] at hx
      exact Or.inl hx

theorem migrateRolesStep_nodup (acc : List String × Bool) (k : String)
    (h : acc.1.Nodup) : (migrateRolesStep acc k).1.Nodup := by
  cases ho : OLD_TO_NEW k with
  | some nk =>
    rw [migrateRolesStep_some acc k nk ho]
    by_cases hm : nk ∈ acc.1
    · rw [if_pos hm]
      exact h
    · rw [if_neg hm]
      exact nodup_append_singleton h hm
  | none =>
    rw [migrateRolesStep_none acc k ho]
    by_cases hr : k ∈ ROLE_ORDER
    · rw [if_pos hr]
      by_cases hm : k ∈ acc.1
      · rw [if_pos hm]
        exact h
      · rw [if_neg hm]
        exact nodup_append_singleton h hm
    · rw [if_neg hr]
      exact h

theorem migrateRolesStep_flag (acc : List String × Bool) (k : String) :
    (migrateRolesStep acc k).2 = (acc.2 || (OLD_TO_NEW k).isSome) := by
  cases ho : OLD_TO_NEW k with
  | some nk =>
    rw [migrateRolesStep_some acc k nk ho]
    simp
  | none =>
    rw [migrateRolesStep_none acc k ho]
    by_cases hr : k ∈ ROLE_ORDER
    · rw [if_pos hr]
      simp
    · rw [if_neg hr]
      simp

theorem rolesFold_mem : ∀ (l : List String) (acc : List String × Bool),
    (∀ x ∈ acc.1, x ∈ ROLE_ORDER) →
    ∀ x ∈ (l.foldl migrateRolesStep acc).1, x ∈ ROLE_ORDER := by
  intro l
  induction l with
  | nil => intro acc hacc x hx; exact hacc x hx
  | cons k rest ih =>
    intro acc hacc x hx
    rw [List.foldl_cons] at hx
    refine ih (migrateRolesStep acc k) ?_ x hx
    intro y hy
    rcases migrateRolesStep_mem acc k y hy with h | h
    · exact hacc y h
    · exact h

theorem rolesFold_nodup : ∀ (l : List String) (acc : List String × Bool),
    acc.1.Nodup → (l.foldl migrateRolesStep acc).1.Nodup := by
  intro l
  induction l with
  | nil => intro acc hacc; exact hacc
  | cons k rest ih =>
    intro acc hacc
    rw [List.foldl_cons]
    exact ih (migrateRolesStep acc k) (migrateRolesStep_nodup acc k hacc)

theorem rolesFold_flag : ∀ (l : List String) (acc : List String × Bool),
    (l.foldl migrateRolesStep acc).2 =
      (acc.2 || l.any (fun k => (OLD_TO_NEW k).isSome)) := by
  intro l
  induction l with
  | nil => intro acc; simp
  | cons k rest ih =>
    intro acc
    rw [List.foldl_cons, ih (migrateRolesStep acc k), migrateRolesStep_flag]
    simp [Bool.or_assoc]

theorem rolesFold_clean : ∀ (l : List String) (acc : List String × Bool),
    (∀ x ∈ l, OLD_TO_NEW x = none ∧ x ∈ ROLE_ORDER) → l.Nodup →
    (∀ x ∈ l, x ∉ acc.1) →
    l.foldl migrateRolesStep acc = (acc.1 ++ l, acc.2) := by
  intro l
  induction l with
  | nil => intro acc _ _ _; simp
  | cons k rest ih =>
    intro acc hcl hnd hdis
    have hk := hcl k (by simp)
    have hstep : migrateRolesStep acc k = (acc.1 ++ [k], acc.2) := by
      rw [migrateRolesStep_none acc k hk.1, if_pos hk.2,
        if_neg (hdis k (by simp))]
    rw [List.foldl_cons, hstep,
      ih (acc.1 ++ [k], acc.2) (fun x hx => hcl x (by simp [hx]))
        (List.nodup_cons.mp hnd).2 ?_]
    · simp
    · intro x hx
      simp only [List.mem_append, List.mem_singleton]
      push_neg
      refine ⟨hdis x (by simp [hx]), ?_⟩
      intro habs
      subst habs
      exact (List.nodup_cons.mp hnd).1 hx

theorem migrateBestStep_some (acc : List (String × ℚ) × Bool) (kv : String × ℚ)
    (nk : String) (h : OLD_TO_NEW kv.1 = some nk) :
    migrateBestStep acc kv = (bestUpdate acc.1 nk kv.2, true) := by
  unfold migrateBestStep
  rw [h]

theorem migrateBestStep_none (acc : List (String × ℚ) × Bool) (kv : String × ℚ)
    (h : OLD_TO_NEW kv.1 = none) :
    migrateBestStep acc kv =
      if kv.1 ∈ ROLE_ORDER then (bestUpdate acc.1 kv.1 kv.2, acc.2) else acc := by
  unfold migrateBestStep
  rw [h]

theorem migrateBestStep_mem (acc : List (String × ℚ) × Bool) (kv : String × ℚ)
    (x : String) (hx : x ∈ dictKeys (migrateBestStep acc kv).1) :
    x ∈ dictKeys acc.1 ∨ x ∈ ROLE_ORDER := by
  cases ho : OLD_TO_NEW kv.1 with
  | some nk =>
    rw [migrateBestStep_some acc kv nk ho] at hx
    rcases mem_dictKeys_bestUpdate acc.1 nk kv.2 x hx with h | h
    · exact Or.inl h
    · subst h
      exact Or.inr (old_to_new_mem kv.1 x ho)
  | none =>
    rw [migrateBestStep_none acc kv ho] at hx
    by_cases hr : kv.1 ∈ ROLE_ORDER
    · rw [if_pos hr] at hx
      rcases mem_dictKeys_bestUpdate acc.1 kv.1 kv.2 x hx with h | h
      · exact Or.inl h
      · subst h
        exact Or.inr hr
    · rw [if_neg hr] at hx
      exact Or.inl hx

theorem migrateBestStep_nodup (acc : List (String × ℚ) × Bool) (kv : String × ℚ)
    (h : (dictKeys acc.1).Nodup) : (dictKeys (migrateBestStep acc kv).1).Nodup := by
  cases ho : OLD_TO_NEW kv.1 with
  | some nk =>
    rw [migrateBestStep_some acc kv nk ho]
    exact nodup_dictKeys_bestUpdate acc.1 nk kv.2 h
  | none =>
    rw [migrateBestStep_none acc kv ho]
    by_cases hr : kv.1 ∈ ROLE_ORDER
    · rw [if_pos hr]
      exact nodup_dictKeys_bestUpdate acc.1 kv.1 kv.2 h
    · rw [if_neg hr]
      exact h

theorem migrateBestStep_flag (acc : List (String × ℚ) × Bool) (kv : String × ℚ) :
    (migrateBestStep acc kv).2 = (acc.2 || (OLD_TO_NEW kv.1).isSome) := by
  cases ho : OLD_TO_NEW kv.1 with
  | some nk =>
    rw [migrateBestStep_some acc kv nk ho]
    simp
  | none =>
    rw [migrateBestStep_none acc kv ho]
    by_cases hr : kv.1 ∈ ROLE_ORDER
    · rw [if_pos hr]
      simp
    · rw [if_neg hr]
      simp

theorem bestFold_mem : ∀ (d : List (String × ℚ)) (acc : List (String × ℚ) × Bool),
    (∀ x ∈ dictKeys acc.1, x ∈ ROLE_ORDER) →
    ∀ x ∈ dictKeys (d.foldl migrateBestStep acc).1, x ∈ ROLE_ORDER := by
  intro d
  induction d with
  | nil => intro acc hacc x hx; exact hacc x hx
  | cons kv rest ih =>
    intro acc hacc x hx
    rw [List.foldl_cons] at hx
    refine ih (migrateBestStep acc kv) ?_ x hx
    intro y hy
    rcases migrateBestStep_mem acc kv y hy with h | h
    · exact hacc y h
    · exact h

theorem bestFold_nodup : ∀ (d : List (String × ℚ)) (acc : List (String × ℚ) × Bool),
    (dictKeys acc.1).Nodup → (dictKeys (d.foldl migrateBestStep acc).1).Nodup := by
  intro d
  induction d with
  | nil => intro acc hacc; exact hacc
  | cons kv rest ih =>
    intro acc hacc
    rw [List.foldl_cons]
    exact ih (migrateBestStep acc kv) (migrateBestStep_nodup acc kv hacc)

theorem bestFold_flag : ∀ (d : List (String × ℚ)) (acc : List (String × ℚ) × Bool),
    (d.foldl migrateBestStep acc).2 =
      (acc.2 || d.any (fun kv => (OLD_TO_NEW kv.1).isSome)) := by
  intro d
  induction d with
  | nil => intro acc; simp
  | cons kv rest ih =>
    intro acc
    rw [List.foldl_cons, ih (migrateBestStep acc kv), migrateBestStep_flag]
    simp [Bool.or_assoc]

theorem bestFold_clean : ∀ (d : List (String × ℚ)) (acc : List (String × ℚ) × Bool),
    (∀ kv ∈ d, OLD_TO_NEW kv.1 = none ∧ kv.1 ∈ ROLE_ORDER) →
    (dictKeys d).Nodup →
    (∀ kv ∈ d, dictGet acc.1 kv.1 = none) →
    d.foldl migrateBestStep acc = (acc.1 ++ d, acc.2) := by
  intro d
  induction d with
  | nil => intro acc _ _ _; simp
  | cons kv rest ih =>
    intro acc hcl hnd hdis
    obtain ⟨k, v⟩ := kv
    have hk := hcl (k, v) (by simp)
    have hgn : dictGet acc.1 k = none := hdis (k, v) (by simp)
    have hstep : migrateBestStep acc (k, v) = (acc.1 ++ [(k, v)], acc.2) := by
      rw [migrateBestStep_none acc (k, v) hk.1, if_pos hk.2,
        bestUpdate_of_get_none acc.1 k v hgn,
        dictSet_of_get_none acc.1 k v hgn]
    simp only [dictKeys_cons, List.nodup_cons] at hnd
    rw [List.foldl_cons, hstep,
      ih (acc.1 ++ [(k, v)], acc.2) (fun x hx => hcl x (by simp [hx])) hnd.2 ?_]
    · simp
    · intro kv' hkv'
      refine dictGet_append_of_ne acc.1 k v kv'.1 (hdis kv' (by simp [hkv'])) ?_
      intro habs
      apply hnd.1
      rw [← habs]
      exact List.mem_map_of_mem Prod.fst hkv'

/-! ## Properties of the two migration sections -/

theorem migratedRoles_mem (c : List String) :
    ∀ x ∈ (migratedRoles c).1, x ∈ ROLE_ORDER := by
  intro x hx
  unfold migratedRoles at hx
  by_cases hc : c = []
  · rw [if_pos hc] at hx
    subst hc
    exact absurd hx (by simp)
  · rw [if_neg hc] at hx
    by_cases hall : (OLD_ROLES.all (fun role => decide (role ∈ c))) = true
    · rw [if_pos hall] at hx
      exact hx
    · rw [if_neg hall] at hx
      exact rolesFold_mem c ([], false) (by simp) x hx

theorem migratedRoles_nodup (c : List String) : (migratedRoles c).1.Nodup := by
  unfold migratedRoles
  by_cases hc : c = []
  · rw [if_pos hc]
    subst hc
    exact List.nodup_nil
  · rw [if_neg hc]
    by_cases hall : (OLD_ROLES.all (fun role => decide (role ∈ c))) = true
    · rw [if_pos hall]
      decide
    · rw [if_neg hall]
      exact rolesFold_nodup c ([], false) List.nodup_nil

theorem migratedBest_mem (d : List (String × ℚ)) :
    ∀ x ∈ dictKeys (migratedBest d).1, x ∈ ROLE_ORDER := by
  intro x hx
  unfold migratedBest at hx
  by_cases hd : d = []
  · rw [if_pos hd] at hx
    subst hd
    exact absurd hx (by simp)
  · rw [if_neg hd] at hx
    exact bestFold_mem d ([], false) (by simp) x hx

theorem migratedBest_nodup (d : List (String × ℚ)) :
    (dictKeys (migratedBest d).1).Nodup := by
  unfold migratedBest
  by_cases hd : d = []
  · rw [if_pos hd]
    subst hd
    exact List.nodup_nil
  · rw [if_neg hd]
    exact bestFold_nodup d ([], false) List.nodup_nil

/-- On a record whose completed list already only holds current, distinct
keys, the roles section is the identity and raises no flag. -/
theorem migratedRoles_of_clean (c : List String)
    (hmem : ∀ x ∈ c, x ∈ ROLE_ORDER) (hnd : c.Nodup) :
    migratedRoles c = (c, false) := by
  unfold migratedRoles
  by_cases hc : c = []
  · rw [if_pos hc]
  · rw [if_neg hc]
    have hall : ¬((OLD_ROLES.all (fun role => decide (role ∈ c))) = true) := by
      intro hb
      have hs : "svetlana" ∈ c :=
        of_decide_eq_true (List.all_eq_true.mp hb "svetlana" (by decide))
      have hmem2 := hmem "svetlana" hs
      revert hmem2
      decide
    rw [if_neg hall,
      rolesFold_clean c ([], false)
        (fun x hx => ⟨old_to_new_none_of_mem_role_order x (hmem x hx), hmem x hx⟩)
        hnd (by simp)]
    simp

/-- On a best-scores dict whose keys are already current and distinct, the
best-scores section is the identity and raises no flag. -/
theorem migratedBest_of_clean (d : List (String × ℚ))
    (hmem : ∀ x ∈ dictKeys d, x ∈ ROLE_ORDER) (hnd : (dictKeys d).Nodup) :
    migratedBest d = (d, false) := by
  unfold migratedBest
  by_cases hd : d = []
  · rw [if_pos hd]
  · rw [if_neg hd,
      bestFold_clean d ([], false)
        (fun kv hkv =>
          ⟨old_to_new_none_of_mem_role_order kv.1
              (hmem kv.1 (List.mem_map_of_mem Prod.fst hkv)),
            hmem kv.1 (List.mem_map_of_mem Prod.fst hkv)⟩)
        hnd (fun kv _ => rfl)]
    simp

/-- A raised roles flag always changes the completed list: a legacy key was
present on input and cannot be present on output. -/
theorem migratedRoles_flag_changes (c : List String)
    (h : (migratedRoles c).2 = true) : (migratedRoles c).1 ≠ c := by
  by_cases hc : c = []
  · exfalso
    rw [hc] at h
    revert h
    decide
  · by_cases hall : (OLD_ROLES.all (fun role => decide (role ∈ c))) = true
    · have hres : migratedRoles c = (ROLE_ORDER, true) := by
        unfold migratedRoles
        rw [if_neg hc, if_pos hall]
      rw [hres]
      intro heq
      have hs : "svetlana" ∈ c :=
        of_decide_eq_true (List.all_eq_true.mp hall "svetlana" (by decide))
      rw [← heq] at hs
      revert hs
      decide
    · have hres : migratedRoles c = c.foldl migrateRolesStep ([], false) := by
        unfold migratedRoles
        rw [if_neg hc, if_neg hall]
      rw [hres] at h ⊢
      rw [rolesFold_flag] at h
      simp only [Bool.false_or] at h
      obtain ⟨k, hk, hsome⟩ := List.any_eq_true.mp h
      have hknot : k ∉ ROLE_ORDER := by
        rcases old_to_new_isSome_cases k hsome with h1 | h1 <;> subst h1 <;> decide
      intro heq
      have hk2 : k ∈ (c.foldl migrateRolesStep ([], false)).1 := by
        rw [heq]
        exact hk
      exact hknot (rolesFold_mem c ([], false) (by simp) k hk2)

/-- A raised best-scores flag always changes the dict: a legacy key was
present on input and cannot be a key of the output. -/
theorem migratedBest_flag_changes (d : List (String × ℚ))
    (h : (migratedBest d).2 = true) : (migratedBest d).1 ≠ d := by
  by_cases hd : d = []
  · exfalso
    rw [hd] at h
    revert h
    decide
  · have hres : migratedBest d = d.foldl migrateBestStep ([], false) := by
      unfold migratedBest
      rw [if_neg hd]
    rw [hres] at h ⊢
    rw [bestFold_flag] at h
    simp only [Bool.false_or] at h
    obtain ⟨kv, hkv, hsome⟩ := List.any_eq_true.mp h
    have hknot : kv.1 ∉ ROLE_ORDER := by
      rcases old_to_new_isSome_cases kv.1 hsome with h1 | h1 <;> rw [h1] <;> decide
    intro heq
    have hkey : kv.1 ∈ dictKeys (d.foldl migrateBestStep ([], false)).1 := by
      rw [heq]
      exact List.mem_map_of_mem Prod.fst hkv
    exact hknot (bestFold_mem d ([], false) (by simp) kv.1 hkey)

/-- When the flag is not raised nothing is persisted. -/
theorem migrate_db_of_flag_false (r : UserProgress)
    (h : (migrate_compute r).migrated = false) : migrate_db r = r := by
  simp [migrate_db, h]

/-- C5: a record whose `completed_roles` contains every legacy key is
migrated to the full current roster: the persisted row has
`completed_roles = ROLE_ORDER` and `current_level_index = len(ROLE_ORDER)`. -/
theorem c5_full_legacy : ∀ r : UserProgress,
    (∀ role ∈ OLD_ROLES, role ∈ r.completed_roles) →
    (migrate_db r).completed_roles = ROLE_ORDER ∧
    (migrate_db r).current_level_index = (ROLE_ORDER.length : Int) := by
  intro r h
  have hne : r.completed_roles ≠ [] := by
    intro habs
    have hs := h "svetlana" (by decide)
    rw [habs] at hs
    exact absurd hs (by simp)
  have hall : (OLD_ROLES.all (fun role => decide (role ∈ r.completed_roles))) = true := by
    rw [List.all_eq_true]
    intro role hrole
    exact decide_eq_true (h role hrole)
  have hroles : migratedRoles r.completed_roles = (ROLE_ORDER, true) := by
    unfold migratedRoles
    rw [if_neg hne, if_pos hall]
  have hm : (migrate_compute r).migrated = true := by
    simp [migrate_compute, hroles]
  simp only [migrate_db, hm, if_true]
  refine ⟨?_, ?_⟩
  · show (migrate_compute r).completed_roles = ROLE_ORDER
    simp [migrate_compute, hroles]
  · show (migrate_compute r).current_level_index = (ROLE_ORDER.length : Int)
    simp [migrate_compute, hroles]

/-- C5 witness: the full-legacy migration applied to a concrete legacy row. -/
theorem c5_full_legacy_witness :
    (∀ role ∈ OLD_ROLES,
      role ∈ (⟨["svetlana", "marina", "irina", "oleg", "victoria"], 3, 10,
        [("svetlana", 2)]⟩ : UserProgress).completed_roles) ∧
    (migrate_db ⟨["svetlana", "marina", "irina", "oleg", "victoria"], 3, 10,
      [("svetlana", 2)]⟩).completed_roles = ROLE_ORDER ∧
    (migrate_db ⟨["svetlana", "marina", "irina", "oleg", "victoria"], 3, 10,
      [("svetlana", 2)]⟩).current_level_index = (ROLE_ORDER.length : Int) :=
  ⟨by decide,
   c5_full_legacy
     ⟨["svetlana", "marina", "irina", "oleg", "victoria"], 3, 10, [("svetlana", 2)]⟩
     (by decide)⟩

/-- C6: migration is idempotent and writes only on change.  Running
`migrate_user_data` on the row left behind by a previous run never raises
the flag again, so the stored row is unchanged and no second write happens;
and whenever a run does raise the flag (i.e. persists), the remapping
actually changed `completed_roles` or `best_scores`, so a record the
remapping leaves unchanged is never written. -/
theorem c6_migration_idempotent : ∀ r : UserProgress,
    (migrate_compute (migrate_db r)).migrated = false ∧
    migrate_db (migrate_db r) = migrate_db r ∧
    ((migrate_compute r).migrated = true →
      ¬((migrate_compute r).completed_roles = r.completed_roles ∧
        (migrate_compute r).best_scores = r.best_scores)) := by
  intro r
  have hflag : (migrate_compute (migrate_db r)).migrated = false := by
    by_cases hm : (migrate_compute r).migrated = true
    · have hdb : migrate_db r =
          ⟨(migrate_compute r).completed_roles, (migrate_compute r).current_level_index,
            (migrate_compute r).total_score, (migrate_compute r).best_scores⟩ := by
        simp [migrate_db, hm]
      have hcr : (migrate_compute r).completed_roles = (migratedRoles r.completed_roles).1 := rfl
      have hbs : (migrate_compute r).best_scores = (migratedBest r.best_scores).1 := rfl
      rw [hdb]
      have h1 : migratedRoles (migrate_compute r).completed_roles =
          ((migrate_compute r).completed_roles, false) :=
        migratedRoles_of_clean _
          (by rw [hcr]; exact migratedRoles_mem _)
          (by rw [hcr]; exact migratedRoles_nodup _)
      have h2 : migratedBest (migrate_compute r).best_scores =
          ((migrate_compute r).best_scores, false) :=
        migratedBest_of_clean _
          (by rw [hbs]; exact migratedBest_mem _)
          (by rw [hbs]; exact migratedBest_nodup _)
      show ((migratedRoles (migrate_compute r).completed_roles).2 ||
        (migratedBest (migrate_compute r).best_scores).2) = false
      rw [h1, h2]
      rfl
    · have hdb : migrate_db r = r := by
        simp only [migrate_db]
        rw [if_neg hm]
      rw [hdb]
      cases hb : (migrate_compute r).migrated
      · rfl
      · exact absurd hb hm
  refine ⟨hflag, migrate_db_of_flag_false _ hflag, ?_⟩
  intro hm hchanged
  obtain ⟨hceq, hbeq⟩ := hchanged
  have hor : (migratedRoles r.completed_roles).2 = true ∨
      (migratedBest r.best_scores).2 = true := by
    have hdef : (migrate_compute r).migrated =
        ((migratedRoles r.completed_roles).2 || (migratedBest r.best_scores).2) := rfl
    rw [hdef] at hm
    simpa using hm
  rcases hor with h | h
  · exact migratedRoles_flag_changes r.completed_roles h hceq
  · exact migratedBest_flag_changes r.best_scores h hbeq

/-- C6 witness: the only-on-change implication applied at a concrete legacy
record whose migration raises the flag. -/
theorem c6_migration_idempotent_witness :
    (migrate_compute legacyRow).migrated = true ∧
    ¬((migrate_compute legacyRow).completed_roles = legacyRow.completed_roles ∧
      (migrate_compute legacyRow).best_scores = legacyRow.best_scores) :=
  ⟨by decide, (c6_migration_idempotent legacyRow).2.2 (by decide)⟩

end BadClient
